import Mathlib

/-!
# Black-Scholes pricing engine: embedding and verification

A shallow embedding of `cpp/src/BlackScholes.cpp` and `cpp/include/BlackScholes.h`.

Modelling conventions
* `double` is modelled by `ℝ`; the `<cmath>` functions `std::exp`, `std::log`, `std::sqrt`,
  `std::abs`, `std::max`, `std::min` are the corresponding real functions, and `std::erfc` is
  the complementary error function `erfc x = 2/√π · ∫_x^∞ exp (-t²) dt`.
* Real division, logarithm and square root are total in Lean (`x / 0 = 0`, `log x = log |x|`,
  `√x = 0` for `x < 0`); the theorems that depend on the arguments being in the domain carry
  the hypotheses `0 < S`, `0 < K`, `0 < T`, `0 < sigma`.
* `int` is modelled by `Int`. The counter of `for (int i = 0; i <= points; ++i)` ranges over
  `0 .. points + 1`, which is representable for every `points` below `INT_MAX`; at
  `points = INT_MAX` the increment overflows, which is undefined behaviour and is not
  modelled. The counter of the Newton loop stays within `0 .. maxIterations`.
* `M_PI` is the decimal constant of the source; no theorem depends on how close it is to `π`.
-/

open Real MeasureTheory Set Filter Topology

/-- The five market parameters held by an instance of `class BlackScholes`. -/
structure BlackScholes where
  /-- Current stock price. -/
  S : ℝ
  /-- Strike price. -/
  K : ℝ
  /-- Time to maturity (in years). -/
  T : ℝ
  /-- Risk-free interest rate. -/
  r : ℝ
  /-- Volatility. -/
  sigma : ℝ

/-- The ten outputs bundled by `calculateAll` (`struct OptionResult`). -/
structure OptionResult where
  callPrice : ℝ
  putPrice : ℝ
  callDelta : ℝ
  putDelta : ℝ
  gamma : ℝ
  vega : ℝ
  callTheta : ℝ
  putTheta : ℝ
  callRho : ℝ
  putRho : ℝ

namespace BlackScholes

/-- The complementary error function computed by `std::erfc`:
`erfc x = 2/√π · ∫_x^∞ exp (-t²) dt`. -/
noncomputable def erfc (x : ℝ) : ℝ :=
  2 / √π * ∫ t in Ioi x, rexp (-t ^ 2)

/-- The constant `M_PI` as the source defines it. -/
noncomputable def M_PI : ℝ := 3.14159265358979323846

/-- Source `normalCDF`: `0.5 * std::erfc(-x / std::sqrt(2.0))`. -/
noncomputable def normalCDF (x : ℝ) : ℝ :=
  0.5 * erfc (-x / √2.0)

/-- Source `normalPDF`: `std::exp(-0.5 * x * x) / std::sqrt(2.0 * M_PI)`. -/
noncomputable def normalPDF (x : ℝ) : ℝ :=
  rexp (-0.5 * x * x) / √(2.0 * M_PI)

/-- Source `d1`: `(log(S / K) + (r + 0.5 * sigma * sigma) * T) / (sigma * sqrt(T))`. -/
noncomputable def d1 (bs : BlackScholes) : ℝ :=
  (Real.log (bs.S / bs.K) + (bs.r + 0.5 * bs.sigma * bs.sigma) * bs.T) / (bs.sigma * √bs.T)

/-- Source `d2`: `d1() - sigma * sqrt(T)`. -/
noncomputable def d2 (bs : BlackScholes) : ℝ :=
  bs.d1 - bs.sigma * √bs.T

/-- Source `callPrice`: `S * normalCDF(d1) - K * exp(-r * T) * normalCDF(d2)`. -/
noncomputable def callPrice (bs : BlackScholes) : ℝ :=
  let d1_val := bs.d1
  let d2_val := bs.d2
  bs.S * normalCDF d1_val - bs.K * rexp (-bs.r * bs.T) * normalCDF d2_val

/-- Source `putPrice`: `K * exp(-r * T) * normalCDF(-d2) - S * normalCDF(-d1)`. -/
noncomputable def putPrice (bs : BlackScholes) : ℝ :=
  let d1_val := bs.d1
  let d2_val := bs.d2
  bs.K * rexp (-bs.r * bs.T) * normalCDF (-d2_val) - bs.S * normalCDF (-d1_val)

/-- Source `callDelta`: `normalCDF(d1())`. -/
noncomputable def callDelta (bs : BlackScholes) : ℝ :=
  normalCDF bs.d1

/-- Source `putDelta`: `normalCDF(d1()) - 1.0`. -/
noncomputable def putDelta (bs : BlackScholes) : ℝ :=
  normalCDF bs.d1 - 1.0

/-- Source `gamma`: `normalPDF(d1) / (S * sigma * sqrt(T))`. -/
noncomputable def gamma (bs : BlackScholes) : ℝ :=
  let d1_val := bs.d1
  normalPDF d1_val / (bs.S * bs.sigma * √bs.T)

/-- Source `vega`: `S * sqrt(T) * normalPDF(d1) / 100.0`. -/
noncomputable def vega (bs : BlackScholes) : ℝ :=
  let d1_val := bs.d1
  bs.S * √bs.T * normalPDF d1_val / 100.0

/-- Source `callTheta`: `(term1 + term2) / 365.0` with
`term1 = -(S * sigma * normalPDF(d1)) / (2.0 * sqrt(T))` and
`term2 = -r * K * exp(-r * T) * normalCDF(d2)`. -/
noncomputable def callTheta (bs : BlackScholes) : ℝ :=
  let d1_val := bs.d1
  let d2_val := bs.d2
  let term1 := -(bs.S * bs.sigma * normalPDF d1_val) / (2.0 * √bs.T)
  let term2 := -bs.r * bs.K * rexp (-bs.r * bs.T) * normalCDF d2_val
  (term1 + term2) / 365.0

/-- Source `putTheta`: `(term1 + term2) / 365.0` with
`term1 = -(S * sigma * normalPDF(d1)) / (2.0 * sqrt(T))` and
`term2 = r * K * exp(-r * T) * normalCDF(-d2)`. -/
noncomputable def putTheta (bs : BlackScholes) : ℝ :=
  let d1_val := bs.d1
  let d2_val := bs.d2
  let term1 := -(bs.S * bs.sigma * normalPDF d1_val) / (2.0 * √bs.T)
  let term2 := bs.r * bs.K * rexp (-bs.r * bs.T) * normalCDF (-d2_val)
  (term1 + term2) / 365.0

/-- Source `callRho`: `K * T * exp(-r * T) * normalCDF(d2()) / 100.0`. -/
noncomputable def callRho (bs : BlackScholes) : ℝ :=
  bs.K * bs.T * rexp (-bs.r * bs.T) * normalCDF bs.d2 / 100.0

/-- Source `putRho`: `-K * T * exp(-r * T) * normalCDF(-d2()) / 100.0`. -/
noncomputable def putRho (bs : BlackScholes) : ℝ :=
  -bs.K * bs.T * rexp (-bs.r * bs.T) * normalCDF (-bs.d2) / 100.0

/-- Source `calculateAll`: every field is the scalar accessor of the same name. -/
noncomputable def calculateAll (bs : BlackScholes) : OptionResult :=
  { callPrice := bs.callPrice
    putPrice := bs.putPrice
    callDelta := bs.callDelta
    putDelta := bs.putDelta
    gamma := bs.gamma
    vega := bs.vega
    callTheta := bs.callTheta
    putTheta := bs.putTheta
    callRho := bs.callRho
    putRho := bs.putRho }

/-- The indices visited by `for (int i = 0; i <= points; ++i)`, in order:
`0, 1, ..., points` (none when `points < 0`). -/
def loopIndices (points : Int) : List Int :=
  (List.range (points + 1).toNat).map fun (n : Nat) => (n : Int)

/-- Source `generateProfitLoss(isCall, premium, points)`: one `push_back` of the
pair `(price, profit)` per loop index. -/
noncomputable def generateProfitLoss (bs : BlackScholes) (isCall : Bool) (premium : ℝ)
    (points : Int) : List (ℝ × ℝ) :=
  let minPrice := bs.K * 0.5
  let maxPrice := bs.K * 1.5
  let step := (maxPrice - minPrice) / (points : ℝ)
  (loopIndices points).map fun (i : Int) =>
    let price := minPrice + (i : ℝ) * step
    let profit := if isCall then max 0.0 (price - bs.K) - premium
                  else max 0.0 (bs.K - price) - premium
    (price, profit)

/-- The body of the Newton loop of `impliedVolatility`, iterated while iterations remain:
`remaining` is `maxIterations - i`, `sigma` the current trial value. Returning `sigma`
covers both `return sigma` inside the loop and `break` followed by `return sigma`. -/
noncomputable def impliedVolatilityLoop (marketPrice S K T r : ℝ) (isCall : Bool)
    (tolerance : ℝ) : Nat → ℝ → ℝ
  | 0, sigma => sigma
  | remaining + 1, sigma =>
    let bs : BlackScholes := ⟨S, K, T, r, sigma⟩
    let price := if isCall then bs.callPrice else bs.putPrice
    let diff := price - marketPrice
    if |diff| < tolerance then sigma
    else
      let vega := bs.vega * 100.0
      if vega < 1e-10 then sigma
      else
        let sigma1 := sigma - diff / vega
        impliedVolatilityLoop marketPrice S K T r isCall tolerance remaining
          (max 0.01 (min 5.0 sigma1))

/-- Source `impliedVolatility(marketPrice, S, K, T, r, isCall, tolerance, maxIterations)`:
Newton-Raphson from the initial guess `0.5`. -/
noncomputable def impliedVolatility (marketPrice S K T r : ℝ) (isCall : Bool)
    (tolerance : ℝ) (maxIterations : Int) : ℝ :=
  impliedVolatilityLoop marketPrice S K T r isCall tolerance maxIterations.toNat 0.5

/-- Source `setStockPrice`. -/
def setStockPrice (bs : BlackScholes) (stockPrice : ℝ) : BlackScholes :=
  { bs with S := stockPrice }

/-- Source `setStrikePrice`. -/
def setStrikePrice (bs : BlackScholes) (strikePrice : ℝ) : BlackScholes :=
  { bs with K := strikePrice }

/-- Source `setTimeToMaturity`. -/
def setTimeToMaturity (bs : BlackScholes) (timeToMaturity : ℝ) : BlackScholes :=
  { bs with T := timeToMaturity }

/-- Source `setRiskFreeRate`. -/
def setRiskFreeRate (bs : BlackScholes) (riskFreeRate : ℝ) : BlackScholes :=
  { bs with r := riskFreeRate }

/-- Source `setVolatility`. -/
def setVolatility (bs : BlackScholes) (volatility : ℝ) : BlackScholes :=
  { bs with sigma := volatility }

/-- Source `getStockPrice`. -/
def getStockPrice (bs : BlackScholes) : ℝ := bs.S

/-- Source `getStrikePrice`. -/
def getStrikePrice (bs : BlackScholes) : ℝ := bs.K

/-- Source `getTimeToMaturity`. -/
def getTimeToMaturity (bs : BlackScholes) : ℝ := bs.T

/-- Source `getRiskFreeRate`. -/
def getRiskFreeRate (bs : BlackScholes) : ℝ := bs.r

/-- Source `getVolatility`. -/
def getVolatility (bs : BlackScholes) : ℝ := bs.sigma

/-! ## The Gaussian tail integral -/

/-- The Taylor polynomial of `exp (-u)` of degree three is within `5/96 · u⁴` of it on
`[0, 1]`. -/
theorem exp_neg_taylor (u : ℝ) (h0 : 0 ≤ u) (h1 : u ≤ 1) :
    |rexp (-u) - (1 - u + u ^ 2 / 2 - u ^ 3 / 6)| ≤ u ^ 4 * (5 / 96) := by
  have h := Real.exp_bound (x := -u) (by rw [abs_neg, abs_of_nonneg h0]; exact h1)
    (n := 4) (by norm_num)
  simp only [Finset.sum_range_succ, Finset.sum_range_zero, Nat.factorial, abs_neg,
    abs_of_nonneg h0] at h
  norm_num at h
  have e : 1 + -u + u ^ 2 / 2 + (-u) ^ 3 / 6 = 1 - u + u ^ 2 / 2 - u ^ 3 / 6 := by ring
  rw [e] at h
  exact h

set_option maxHeartbeats 1000000 in
/-- Facts about the Gaussian tail `∫_x^∞ exp (-t²) dt`, the integral `erfc` is defined by:
the two tails at `x` and `-x` add up to `√π`; the tail is positive; shifting its lower limit
to the right by `b > 0` shrinks it by more than the factor `exp (-2bu - b²)`; it is `√π / 2`
minus the integral over `[0, y]`; and on `0 ≤ y ≤ 1` the latter is enclosed by the integrated
Taylor polynomial of `exp (-t²)`. -/
theorem gaussian_tail_facts :
    (∀ x : ℝ, (∫ t in Ioi x, rexp (-t ^ 2)) + ∫ t in Ioi (-x), rexp (-t ^ 2) = √π) ∧
    (∀ x : ℝ, 0 < ∫ t in Ioi x, rexp (-t ^ 2)) ∧
    (∀ u b : ℝ, 0 < b →
      ∫ t in Ioi (u + b), rexp (-t ^ 2)
        < rexp (-2 * b * u - b ^ 2) * ∫ t in Ioi u, rexp (-t ^ 2)) ∧
    (∀ y : ℝ, ∫ t in Ioi y, rexp (-t ^ 2) = √π / 2 - ∫ t in (0 : ℝ)..y, rexp (-t ^ 2)) ∧
    (∀ y : ℝ, 0 ≤ y → y ≤ 1 →
      y - y ^ 3 / 3 + y ^ 5 / 10 - y ^ 7 / 42 - 5 / 864 * y ^ 9
          ≤ ∫ t in (0 : ℝ)..y, rexp (-t ^ 2) ∧
        ∫ t in (0 : ℝ)..y, rexp (-t ^ 2)
          ≤ y - y ^ 3 / 3 + y ^ 5 / 10 - y ^ 7 / 42 + 5 / 864 * y ^ 9) := by
  have hi : Integrable (fun t : ℝ => rexp (-t ^ 2)) := by
    have h := integrable_exp_neg_mul_sq (b := 1) one_pos
    simpa using h
  have htotal : ∫ t : ℝ, rexp (-t ^ 2) = √π := by
    have h := integral_gaussian 1
    simpa using h
  have hhalf : ∫ t in Ioi (0 : ℝ), rexp (-t ^ 2) = √π / 2 := by
    have h := integral_gaussian_Ioi 1
    simpa using h
  have hsplit : ∀ y : ℝ,
      (∫ t in Iic y, rexp (-t ^ 2)) + ∫ t in Ioi y, rexp (-t ^ 2) = √π := by
    intro y
    rw [← htotal]
    exact intervalIntegral.integral_Iic_add_Ioi hi.integrableOn hi.integrableOn
  -- the two tails at `x` and `-x`
  have hsymm : ∀ x : ℝ,
      (∫ t in Ioi x, rexp (-t ^ 2)) + ∫ t in Ioi (-x), rexp (-t ^ 2) = √π := by
    intro x
    have h1 : (∫ t in Ioi (-x), rexp (-t ^ 2)) = ∫ t in Iic x, rexp (-t ^ 2) := by
      have h := integral_comp_neg_Ioi (-x) (fun t : ℝ => rexp (-t ^ 2))
      simpa using h
    rw [h1, add_comm]
    exact hsplit x
  -- positivity
  have hpos : ∀ x : ℝ, 0 < ∫ t in Ioi x, rexp (-t ^ 2) := by
    intro x
    rw [setIntegral_pos_iff_support_of_nonneg_ae]
    · have hs : Function.support (fun t : ℝ => rexp (-t ^ 2)) = univ := by
        ext t; simp [Real.exp_ne_zero]
      rw [hs, univ_inter]
      simp
    · exact Eventually.of_forall fun t => (Real.exp_pos _).le
    · exact hi.integrableOn
  -- the shifted tail
  have hshift : ∀ u b : ℝ, 0 < b →
      ∫ t in Ioi (u + b), rexp (-t ^ 2)
        < rexp (-2 * b * u - b ^ 2) * ∫ t in Ioi u, rexp (-t ^ 2) := by
    intro u b hb
    have hmove : ∫ t in Ioi (u + b), rexp (-t ^ 2) = ∫ s in Ioi u, rexp (-(s + b) ^ 2) := by
      rw [← integral_indicator measurableSet_Ioi, ← integral_indicator measurableSet_Ioi,
        ← integral_add_right_eq_self
          (fun t => (Ioi (u + b)).indicator (fun t => rexp (-t ^ 2)) t) b]
      congr 1
      funext s
      by_cases hs : u < s
      · have h1 : s + b ∈ Ioi (u + b) := by simpa using hs
        have h2 : s ∈ Ioi u := hs
        simp only [indicator_of_mem h1, indicator_of_mem h2]
      · have h1 : s + b ∉ Ioi (u + b) := by simpa using hs
        have h2 : s ∉ Ioi u := hs
        simp only [indicator_of_not_mem h1, indicator_of_not_mem h2]
    have hib : IntegrableOn (fun s : ℝ => rexp (-(s + b) ^ 2)) (Ioi u) :=
      (hi.comp_add_right b).integrableOn
    rw [hmove, ← sub_pos, ← integral_mul_left,
      ← integral_sub (hi.integrableOn.const_mul _) hib]
    have hgt : ∀ s ∈ Ioi u,
        0 < rexp (-2 * b * u - b ^ 2) * rexp (-s ^ 2) - rexp (-(s + b) ^ 2) := by
      intro s hs
      rw [sub_pos, ← Real.exp_add, Real.exp_lt_exp]
      have : u < s := hs
      nlinarith
    rw [setIntegral_pos_iff_support_of_nonneg_ae]
    · have hsub : Ioi u ⊆ Function.support (fun s : ℝ =>
          rexp (-2 * b * u - b ^ 2) * rexp (-s ^ 2) - rexp (-(s + b) ^ 2)) ∩ Ioi u := by
        intro s hs
        exact ⟨(hgt s hs).ne', hs⟩
      refine lt_of_lt_of_le ?_ (measure_mono hsub)
      simp
    · rw [Filter.EventuallyLE, ae_restrict_iff' measurableSet_Ioi]
      exact Eventually.of_forall fun s hs => (hgt s hs).le
    · exact (hi.integrableOn.const_mul _).sub hib
  -- the tail as a bounded integral
  have hbounded : ∀ y : ℝ,
      ∫ t in Ioi y, rexp (-t ^ 2) = √π / 2 - ∫ t in (0 : ℝ)..y, rexp (-t ^ 2) := by
    intro y
    have h0 := hsplit 0
    have hy := hsplit y
    have hs := intervalIntegral.integral_Iic_sub_Iic (a := 0) (b := y) hi.integrableOn
      hi.integrableOn
    rw [hhalf] at h0
    linarith
  -- the enclosure by the Taylor polynomial
  have hpoly : ∀ e y : ℝ,
      ∫ t in (0 : ℝ)..y, (1 - t ^ 2 + t ^ 4 / 2 - t ^ 6 / 6 + e * t ^ 8)
        = y - y ^ 3 / 3 + y ^ 5 / 10 - y ^ 7 / 42 + e / 9 * y ^ 9 := by
    intro e y
    have hd : ∀ t ∈ uIcc (0 : ℝ) y,
        HasDerivAt (fun t : ℝ => t - t ^ 3 / 3 + t ^ 5 / 10 - t ^ 7 / 42 + e / 9 * t ^ 9)
          (1 - t ^ 2 + t ^ 4 / 2 - t ^ 6 / 6 + e * t ^ 8) t := by
      intro t _
      have := ((((hasDerivAt_id t).sub ((hasDerivAt_pow 3 t).div_const 3)).add
        ((hasDerivAt_pow 5 t).div_const 10)).sub ((hasDerivAt_pow 7 t).div_const 42)).add
        ((hasDerivAt_pow 9 t).const_mul (e / 9))
      convert this using 1
      norm_num
      ring
    rw [intervalIntegral.integral_eq_sub_of_hasDerivAt hd (Continuous.intervalIntegrable
      (by fun_prop) _ _)]
    norm_num
  have henc : ∀ y : ℝ, 0 ≤ y → y ≤ 1 →
      y - y ^ 3 / 3 + y ^ 5 / 10 - y ^ 7 / 42 - 5 / 864 * y ^ 9
          ≤ ∫ t in (0 : ℝ)..y, rexp (-t ^ 2) ∧
        ∫ t in (0 : ℝ)..y, rexp (-t ^ 2)
          ≤ y - y ^ 3 / 3 + y ^ 5 / 10 - y ^ 7 / 42 + 5 / 864 * y ^ 9 := by
    intro y h0 h1
    have hexp : IntervalIntegrable (fun t : ℝ => rexp (-t ^ 2)) volume 0 y :=
      Continuous.intervalIntegrable (by fun_prop) _ _
    have hpi : ∀ e : ℝ, IntervalIntegrable
        (fun t : ℝ => 1 - t ^ 2 + t ^ 4 / 2 - t ^ 6 / 6 + e * t ^ 8) volume 0 y :=
      fun e => Continuous.intervalIntegrable (by fun_prop) _ _
    have hpt : ∀ t ∈ Icc (0 : ℝ) y,
        |rexp (-t ^ 2) - (1 - t ^ 2 + t ^ 4 / 2 - t ^ 6 / 6)| ≤ 5 / 96 * t ^ 8 := by
      intro t ht
      have hsq : t ^ 2 ≤ 1 := by nlinarith [ht.1, ht.2]
      have h := exp_neg_taylor (t ^ 2) (sq_nonneg t) hsq
      have e1 : 1 - t ^ 2 + (t ^ 2) ^ 2 / 2 - (t ^ 2) ^ 3 / 6
          = 1 - t ^ 2 + t ^ 4 / 2 - t ^ 6 / 6 := by ring
      have e2 : (t ^ 2) ^ 4 * (5 / 96) = 5 / 96 * t ^ 8 := by ring
      rw [e1, e2] at h
      exact h
    constructor
    · have h := intervalIntegral.integral_mono_on h0 (hpi (-(5 / 96))) hexp
        (fun t ht => by have := (abs_le.mp (hpt t ht)).1; linarith)
      rw [hpoly] at h
      linarith
    · have h := intervalIntegral.integral_mono_on h0 hexp (hpi (5 / 96))
        (fun t ht => by have := (abs_le.mp (hpt t ht)).2; linarith)
      rw [hpoly] at h
      linarith
  exact ⟨hsymm, hpos, hshift, hbounded, henc⟩

/-! ## The normal distribution helpers -/

set_option maxHeartbeats 1000000 in
/-- Facts about `normalCDF`: the reflection `normalCDF (-x) = 1 - normalCDF x`; the range
`0 < normalCDF x < 1`; the tail bound `normalCDF (-y) ≤ exp (-y²/2) / 2` for `y ≥ 0`; the
shift inequality `normalCDF (d - a) < exp (a d - a²/2) · normalCDF d` for `a > 0`; and, for
`0 ≤ x`, `x² ≤ 2`, the enclosure
`1/2 + x/√(2π) · (1 - u/3 + u²/10 - u³/42 ∓ 5u⁴/864)` with `u = x²/2`. -/
theorem normalCDF_facts :
    (∀ x : ℝ, normalCDF (-x) = 1 - normalCDF x) ∧
    (∀ x : ℝ, 0 < normalCDF x ∧ normalCDF x < 1) ∧
    (∀ y : ℝ, 0 ≤ y → normalCDF (-y) ≤ rexp (-(y ^ 2 / 2)) / 2) ∧
    (∀ d a : ℝ, 0 < a → normalCDF (d - a) < rexp (a * d - a ^ 2 / 2) * normalCDF d) ∧
    (∀ x : ℝ, 0 ≤ x → x ^ 2 ≤ 2 →
      0.5 + x / √(2 * π) * (1 - (x ^ 2 / 2) / 3 + (x ^ 2 / 2) ^ 2 / 10
          - (x ^ 2 / 2) ^ 3 / 42 - 5 / 864 * (x ^ 2 / 2) ^ 4) ≤ normalCDF x ∧
        normalCDF x ≤ 0.5 + x / √(2 * π) * (1 - (x ^ 2 / 2) / 3 + (x ^ 2 / 2) ^ 2 / 10
          - (x ^ 2 / 2) ^ 3 / 42 + 5 / 864 * (x ^ 2 / 2) ^ 4)) := by
  obtain ⟨hsymm, hpos, hshift, hbounded, henc⟩ := gaussian_tail_facts
  have hp : 0 < √π := Real.sqrt_pos.mpr Real.pi_pos
  have h2 : (0 : ℝ) < √2.0 := Real.sqrt_pos.mpr (by norm_num)
  have hs : √2.0 * √2.0 = 2 := by
    rw [Real.mul_self_sqrt (by norm_num)]
    norm_num
  have hc : 0 < 2 / √π := div_pos (by norm_num) hp
  -- the same facts for `erfc`
  have erfc_symm : ∀ x : ℝ, erfc x + erfc (-x) = 2 := by
    intro x
    unfold erfc
    rw [← mul_add, hsymm]
    field_simp
  have erfc_pos : ∀ x : ℝ, 0 < erfc x := by
    intro x
    unfold erfc
    exact mul_pos hc (hpos x)
  have erfc_tail : ∀ x : ℝ, 0 ≤ x → erfc x ≤ rexp (-x ^ 2) := by
    intro x hx
    have hzero : erfc 0 = 1 := by
      have := erfc_symm 0
      rw [neg_zero] at this
      linarith
    rcases eq_or_lt_of_le hx with h0 | hlt
    · rw [← h0, hzero]
      norm_num
    · have h := hshift 0 x hlt
      rw [zero_add] at h
      have e : -2 * x * 0 - x ^ 2 = -x ^ 2 := by ring
      rw [e] at h
      have h' := mul_lt_mul_of_pos_left h hc
      have hz : 2 / √π * ∫ t in Ioi (0 : ℝ), rexp (-t ^ 2) = 1 := hzero
      have e2 : 2 / √π * (rexp (-x ^ 2) * ∫ t in Ioi (0 : ℝ), rexp (-t ^ 2))
          = rexp (-x ^ 2) * (2 / √π * ∫ t in Ioi (0 : ℝ), rexp (-t ^ 2)) := by ring
      rw [e2, hz, mul_one] at h'
      unfold erfc
      exact h'.le
  have hneg : ∀ x : ℝ, normalCDF (-x) = 1 - normalCDF x := by
    intro x
    unfold normalCDF
    have h := erfc_symm (-x / √2.0)
    have e : -(-x) / √2.0 = -(-x / √2.0) := by ring
    rw [e]
    linarith
  have hrange : ∀ x : ℝ, 0 < normalCDF x ∧ normalCDF x < 1 := by
    intro x
    unfold normalCDF
    have h := erfc_pos (-x / √2.0)
    have h' := erfc_pos (-(-x / √2.0))
    have hsum := erfc_symm (-x / √2.0)
    constructor <;> linarith
  have htail : ∀ y : ℝ, 0 ≤ y → normalCDF (-y) ≤ rexp (-(y ^ 2 / 2)) / 2 := by
    intro y hy
    unfold normalCDF
    have h := erfc_tail (y / √2.0) (div_nonneg hy h2.le)
    have e : - -y / √2.0 = y / √2.0 := by ring
    have e2 : (y / √2.0) ^ 2 = y ^ 2 / 2 := by
      rw [div_pow, sq (√2.0), hs]
    rw [e]
    rw [e2] at h
    linarith
  have hsub : ∀ d a : ℝ, 0 < a →
      normalCDF (d - a) < rexp (a * d - a ^ 2 / 2) * normalCDF d := by
    intro d a ha
    have key := hshift (-d / √2.0) (a / √2.0) (div_pos ha h2)
    have e1 : -d / √2.0 + a / √2.0 = -(d - a) / √2.0 := by ring
    have e2 : -2 * (a / √2.0) * (-d / √2.0) - (a / √2.0) ^ 2 = a * d - a ^ 2 / 2 := by
      field_simp
      nlinarith
    rw [e1, e2] at key
    unfold normalCDF erfc
    have := mul_lt_mul_of_pos_left key hc
    nlinarith
  have hseries : ∀ x : ℝ, 0 ≤ x → x ^ 2 ≤ 2 →
      0.5 + x / √(2 * π) * (1 - (x ^ 2 / 2) / 3 + (x ^ 2 / 2) ^ 2 / 10
          - (x ^ 2 / 2) ^ 3 / 42 - 5 / 864 * (x ^ 2 / 2) ^ 4) ≤ normalCDF x ∧
        normalCDF x ≤ 0.5 + x / √(2 * π) * (1 - (x ^ 2 / 2) / 3 + (x ^ 2 / 2) ^ 2 / 10
          - (x ^ 2 / 2) ^ 3 / 42 + 5 / 864 * (x ^ 2 / 2) ^ 4) := by
    intro x h0 h1
    have hy0 : 0 ≤ x / √2.0 := div_nonneg h0 h2.le
    have hysq : (x / √2.0) ^ 2 = x ^ 2 / 2 := by
      rw [div_pow, sq (√2.0), hs]
    have hy1 : x / √2.0 ≤ 1 := by
      have hle : (x / √2.0) ^ 2 ≤ 1 ^ 2 := by rw [hysq]; linarith
      exact (abs_le_of_sq_le_sq' hle (by norm_num)).2
    have hb := henc (x / √2.0) hy0 hy1
    have hcdf : normalCDF x = 0.5 + 1 / √π * ∫ t in (0 : ℝ)..(x / √2.0), rexp (-t ^ 2) := by
      have hsum := erfc_symm (x / √2.0)
      have he : erfc (x / √2.0)
          = 1 - 2 / √π * ∫ t in (0 : ℝ)..(x / √2.0), rexp (-t ^ 2) := by
        unfold erfc
        rw [hbounded]
        field_simp
        ring
      unfold normalCDF
      rw [neg_div]
      have : erfc (-(x / √2.0))
          = 1 + 2 / √π * ∫ t in (0 : ℝ)..(x / √2.0), rexp (-t ^ 2) := by linarith
      rw [this]
      ring
    have hsq2 : √2.0 * √π = √(2 * π) := by
      rw [← Real.sqrt_mul (by norm_num)]
      norm_num
    have hcoef : 1 / √π * (x / √2.0) = x / √(2 * π) := by
      rw [← hsq2]
      field_simp
      left
      ring
    have hodd : ∀ k : ℕ, (x / √2.0) ^ (2 * k + 1) = (x / √2.0) * (x ^ 2 / 2) ^ k := by
      intro k
      rw [pow_succ, pow_mul, hysq, mul_comm]
    have e3 : (x / √2.0) ^ 3 = (x / √2.0) * (x ^ 2 / 2) := by
      rw [show (3 : ℕ) = 2 * 1 + 1 from rfl, hodd, pow_one]
    have e5 : (x / √2.0) ^ 5 = (x / √2.0) * (x ^ 2 / 2) ^ 2 := by
      rw [show (5 : ℕ) = 2 * 2 + 1 from rfl, hodd]
    have e7 : (x / √2.0) ^ 7 = (x / √2.0) * (x ^ 2 / 2) ^ 3 := by
      rw [show (7 : ℕ) = 2 * 3 + 1 from rfl, hodd]
    have e9 : (x / √2.0) ^ 9 = (x / √2.0) * (x ^ 2 / 2) ^ 4 := by
      rw [show (9 : ℕ) = 2 * 4 + 1 from rfl, hodd]
    rw [e3, e5, e7, e9] at hb
    have hq : 0 < 1 / √π := by positivity
    rw [hcdf, ← hcoef]
    constructor
    · have h := mul_le_mul_of_nonneg_left hb.1 hq.le
      have e : 1 / √π * (x / √2.0) * (1 - (x ^ 2 / 2) / 3 + (x ^ 2 / 2) ^ 2 / 10
          - (x ^ 2 / 2) ^ 3 / 42 - 5 / 864 * (x ^ 2 / 2) ^ 4)
          = 1 / √π * (x / √2.0 - x / √2.0 * (x ^ 2 / 2) / 3 + x / √2.0 * (x ^ 2 / 2) ^ 2 / 10
            - x / √2.0 * (x ^ 2 / 2) ^ 3 / 42 - 5 / 864 * (x / √2.0 * (x ^ 2 / 2) ^ 4)) := by
        ring
      rw [e]
      linarith
    · have h := mul_le_mul_of_nonneg_left hb.2 hq.le
      have e : 1 / √π * (x / √2.0) * (1 - (x ^ 2 / 2) / 3 + (x ^ 2 / 2) ^ 2 / 10
          - (x ^ 2 / 2) ^ 3 / 42 + 5 / 864 * (x ^ 2 / 2) ^ 4)
          = 1 / √π * (x / √2.0 - x / √2.0 * (x ^ 2 / 2) / 3 + x / √2.0 * (x ^ 2 / 2) ^ 2 / 10
            - x / √2.0 * (x ^ 2 / 2) ^ 3 / 42 + 5 / 864 * (x / √2.0 * (x ^ 2 / 2) ^ 4)) := by
        ring
      rw [e]
      linarith
  exact ⟨hneg, hrange, htail, hsub, hseries⟩

/-- Facts about `normalPDF`: it is positive, at most `1`, at least `(1 - x²/2) / 3`, and
`0.3752 ≤ normalPDF 0.35 ≤ 0.3753`. -/
theorem normalPDF_facts :
    (∀ x : ℝ, 0 < normalPDF x ∧ normalPDF x ≤ 1 ∧ (1 - 0.5 * x * x) / 3 ≤ normalPDF x) ∧
    (0.3752 ≤ normalPDF 0.35 ∧ normalPDF 0.35 ≤ 0.3753) := by
  have hlo : 2.506628 ≤ √(2.0 * M_PI) := by
    unfold M_PI
    apply Real.le_sqrt_of_sq_le
    norm_num
  have hhi : √(2.0 * M_PI) ≤ 2.506629 := by
    unfold M_PI
    rw [Real.sqrt_le_iff]
    constructor <;> norm_num
  have hpos : 0 < √(2.0 * M_PI) := by linarith
  constructor
  · intro x
    have he := Real.exp_pos (-0.5 * x * x)
    have h1 : rexp (-0.5 * x * x) ≤ 1 := by
      rw [Real.exp_le_one_iff]
      nlinarith [mul_self_nonneg x]
    have h2 : -0.5 * x * x + 1 ≤ rexp (-0.5 * x * x) := Real.add_one_le_exp _
    unfold normalPDF
    refine ⟨div_pos he hpos, ?_, ?_⟩
    · rw [div_le_one hpos]
      linarith
    · rw [div_le_div_iff₀ (by norm_num) hpos]
      nlinarith
  · have ht := exp_neg_taylor 0.06125 (by norm_num) (by norm_num)
    rw [abs_le] at ht
    have he : 0.940586 ≤ rexp (-0.06125) ∧ rexp (-0.06125) ≤ 0.940589 := by
      norm_num at ht ⊢
      constructor <;> linarith [ht.1, ht.2]
    have e : (-0.5 * 0.35 * 0.35 : ℝ) = -0.06125 := by norm_num
    unfold normalPDF
    rw [e]
    constructor
    · rw [le_div_iff₀ hpos]
      nlinarith [he.1, hhi]
    · rw [div_le_iff₀ hpos]
      nlinarith [he.2, hlo]

/-! ## Pricing and Greeks -/

/-- For a positive spot, `S = K * exp (-(r + σ²/2) T) * exp (σ √T · d1)`. -/
theorem spot_eq_exp_d1 (S K T r sigma : ℝ) (hS : 0 < S) (hK : 0 < K) (hT : 0 < T)
    (hsigma : 0 < sigma) :
    S = K * rexp (-((r + 0.5 * sigma * sigma) * T))
      * rexp (sigma * √T * d1 ⟨S, K, T, r, sigma⟩) := by
  have ha : 0 < sigma * √T := mul_pos hsigma (Real.sqrt_pos.mpr hT)
  have e : sigma * √T * d1 ⟨S, K, T, r, sigma⟩
      = Real.log (S / K) + (r + 0.5 * sigma * sigma) * T := by
    unfold d1
    field_simp
  have e2 : -((r + 0.5 * sigma * sigma) * T) + (Real.log (S / K) + (r + 0.5 * sigma * sigma) * T)
      = Real.log (S / K) := by ring
  rw [e, mul_assoc, ← Real.exp_add, e2, Real.exp_log (div_pos hS hK)]
  field_simp

/-- Crude bounds of the call price for positive spot and strike:
`-K * exp (-r * T) < callPrice < S`. -/
theorem callPrice_bounds (bs : BlackScholes) (hS : 0 < bs.S) (hK : 0 < bs.K) :
    -(bs.K * rexp (-bs.r * bs.T)) < bs.callPrice ∧ bs.callPrice < bs.S := by
  obtain ⟨-, hrange, -⟩ := normalCDF_facts
  have h1 := hrange bs.d1
  have h2 := hrange bs.d2
  have h3 : 0 < bs.K * rexp (-bs.r * bs.T) := mul_pos hK (Real.exp_pos _)
  unfold callPrice
  simp only []
  constructor
  · nlinarith [mul_pos hS h1.1, mul_pos h3 (sub_pos.mpr h2.2)]
  · nlinarith [mul_pos h3 h2.1, mul_pos hS (sub_pos.mpr h1.2)]

/-- The values of `d1` and `d2` at the parameter sets used below. -/
theorem d1_d2_values :
    d1 ⟨100, 100, 1, 0.05, 0.2⟩ = 0.35 ∧ d2 ⟨100, 100, 1, 0.05, 0.2⟩ = 0.15 ∧
      d1 ⟨100, 100, 1, 0.05, 0.5⟩ = 0.35 ∧ d1 ⟨1e-7, 1e-7, 1, 0, 0.2⟩ = 0.1 := by
  refine ⟨?_, ?_, ?_, ?_⟩
  · unfold d1
    norm_num
  · unfold d2 d1
    norm_num
  · unfold d1
    norm_num
  · unfold d1
    norm_num

/-- C1. Put-call parity: for valid parameters `callPrice - putPrice = S - K * exp (-r * T)`;
in particular at `S = K`, `r = 0` the call and the put have the same price. -/
theorem put_call_parity (bs : BlackScholes) (_hS : 0 < bs.S) (_hK : 0 < bs.K)
    (_hT : 0 < bs.T) (_hsigma : 0 < bs.sigma) :
    bs.callPrice - bs.putPrice = bs.S - bs.K * rexp (-bs.r * bs.T) ∧
      (bs.S = bs.K → bs.r = 0 → bs.callPrice = bs.putPrice) := by
  obtain ⟨hneg, -⟩ := normalCDF_facts
  have key : bs.callPrice - bs.putPrice = bs.S - bs.K * rexp (-bs.r * bs.T) := by
    unfold callPrice putPrice
    simp only [hneg]
    ring
  refine ⟨key, fun hSK hr => ?_⟩
  rw [hSK, hr] at key
  simp at key
  linarith

/-- Witness for C1 at the reference scenario `S = 100, K = 100, T = 1, r = 0.05, σ = 0.2`. -/
theorem put_call_parity_witness :
    callPrice ⟨100, 100, 1, 0.05, 0.2⟩ - putPrice ⟨100, 100, 1, 0.05, 0.2⟩
      = 100 - 100 * rexp (-0.05 * 1) :=
  (put_call_parity ⟨100, 100, 1, 0.05, 0.2⟩ (by norm_num) (by norm_num) (by norm_num)
    (by norm_num)).1

/-- C19. Greek parity: for valid parameters
`callTheta - putTheta = -r * K * exp (-r * T) / 365` and
`callRho - putRho = K * T * exp (-r * T) / 100`. -/
theorem greek_parity (bs : BlackScholes) (_hS : 0 < bs.S) (_hK : 0 < bs.K) (_hT : 0 < bs.T)
    (_hsigma : 0 < bs.sigma) :
    bs.callTheta - bs.putTheta = -bs.r * bs.K * rexp (-bs.r * bs.T) / 365 ∧
      bs.callRho - bs.putRho = bs.K * bs.T * rexp (-bs.r * bs.T) / 100 := by
  obtain ⟨hneg, -⟩ := normalCDF_facts
  unfold callTheta putTheta callRho putRho
  simp only [hneg]
  constructor <;> ring

/-- Witness for C19 at the reference scenario. -/
theorem greek_parity_witness :
    callTheta ⟨100, 100, 1, 0.05, 0.2⟩ - putTheta ⟨100, 100, 1, 0.05, 0.2⟩
        = -0.05 * 100 * rexp (-0.05 * 1) / 365 ∧
      callRho ⟨100, 100, 1, 0.05, 0.2⟩ - putRho ⟨100, 100, 1, 0.05, 0.2⟩
        = 100 * 1 * rexp (-0.05 * 1) / 100 :=
  greek_parity ⟨100, 100, 1, 0.05, 0.2⟩ (by norm_num) (by norm_num) (by norm_num) (by norm_num)

/-- Limits of `normalCDF`: it tends to `0` at `-∞` and to `1` at `+∞`, and its upper tail
decays faster than any exponential grows: `exp (a d) * normalCDF (-d) → 0` as `d → +∞`. -/
theorem normalCDF_limits :
    Tendsto normalCDF atBot (𝓝 0) ∧ Tendsto normalCDF atTop (𝓝 1) ∧
      ∀ a : ℝ, Tendsto (fun d : ℝ => rexp (a * d) * normalCDF (-d)) atTop (𝓝 0) := by
  obtain ⟨hneg, hrange, htail, -⟩ := normalCDF_facts
  have hbot : Tendsto normalCDF atBot (𝓝 0) := by
    have hb : Tendsto (fun x : ℝ => rexp x / 2) atBot (𝓝 0) := by
      simpa using Real.tendsto_exp_atBot.div_const 2
    refine tendsto_of_tendsto_of_tendsto_of_le_of_le' tendsto_const_nhds hb
      (Eventually.of_forall fun x => (hrange x).1.le) ?_
    filter_upwards [eventually_le_atBot (-2 : ℝ)] with x hx
    have h := htail (-x) (by linarith)
    rw [neg_neg] at h
    refine h.trans ?_
    have : -((-x) ^ 2 / 2) ≤ x := by nlinarith
    have := Real.exp_le_exp.mpr this
    linarith
  have htop : Tendsto normalCDF atTop (𝓝 1) := by
    have h : Tendsto (fun x : ℝ => 1 - normalCDF (-x)) atTop (𝓝 (1 - 0)) :=
      tendsto_const_nhds.sub (hbot.comp tendsto_neg_atTop_atBot)
    have e : (fun x : ℝ => 1 - normalCDF (-x)) = normalCDF := by
      funext x; rw [hneg]; ring
    simpa [e] using h
  refine ⟨hbot, htop, fun a => ?_⟩
  have hb : Tendsto (fun d : ℝ => rexp (-d) / 2) atTop (𝓝 0) := by
    simpa using (Real.tendsto_exp_atBot.comp tendsto_neg_atTop_atBot).div_const 2
  refine tendsto_of_tendsto_of_tendsto_of_le_of_le' tendsto_const_nhds hb
    (Eventually.of_forall fun d => (mul_pos (Real.exp_pos _) (hrange _).1).le) ?_
  filter_upwards [eventually_ge_atTop (0 : ℝ), eventually_ge_atTop (2 * (a + 1))] with d h0 h1
  have h := htail d h0
  calc rexp (a * d) * normalCDF (-d)
      ≤ rexp (a * d) * (rexp (-(d ^ 2 / 2)) / 2) :=
        mul_le_mul_of_nonneg_left h (Real.exp_pos _).le
    _ = rexp (a * d + -(d ^ 2 / 2)) / 2 := by rw [Real.exp_add]; ring
    _ ≤ rexp (-d) / 2 := by
        have : a * d + -(d ^ 2 / 2) ≤ -d := by nlinarith
        have := Real.exp_le_exp.mpr this
        linarith

/-- C7. Deep in-the-money call: as `S → +∞` (fixed valid `K`, `T`, `sigma`, any `r`),
`callDelta → 1` and `callPrice - (S - K * exp (-r * T)) → 0`. -/
theorem deep_in_the_money_call (K T r sigma : ℝ) (hK : 0 < K) (hT : 0 < T)
    (hsigma : 0 < sigma) :
    Tendsto (fun S : ℝ => callDelta ⟨S, K, T, r, sigma⟩) atTop (𝓝 1) ∧
      Tendsto (fun S : ℝ => callPrice ⟨S, K, T, r, sigma⟩ - (S - K * rexp (-r * T)))
        atTop (𝓝 0) := by
  obtain ⟨hbot, htop, hexp⟩ := normalCDF_limits
  obtain ⟨hneg, -⟩ := normalCDF_facts
  have ha : 0 < sigma * √T := mul_pos hsigma (Real.sqrt_pos.mpr hT)
  have hd1 : Tendsto (fun S : ℝ => d1 ⟨S, K, T, r, sigma⟩) atTop atTop := by
    unfold d1
    simp only []
    apply Tendsto.atTop_div_const ha
    apply tendsto_atTop_add_const_right
    exact Real.tendsto_log_atTop.comp (tendsto_id.atTop_div_const hK)
  have hd2 : Tendsto (fun S : ℝ => d2 ⟨S, K, T, r, sigma⟩) atTop atTop := by
    unfold d2
    have h := tendsto_atTop_add_const_right atTop (-(sigma * √T)) hd1
    simpa [sub_eq_add_neg] using h
  refine ⟨?_, ?_⟩
  · unfold callDelta
    exact htop.comp hd1
  -- the tail term `S * normalCDF (-d1)` vanishes
  have h1 : Tendsto (fun S : ℝ => S * normalCDF (-d1 ⟨S, K, T, r, sigma⟩)) atTop (𝓝 0) := by
    have h := ((hexp (sigma * √T)).comp hd1).const_mul
      (K * rexp (-((r + 0.5 * sigma * sigma) * T)))
    rw [mul_zero] at h
    refine h.congr' ?_
    filter_upwards [eventually_gt_atTop (0 : ℝ)] with S hS
    simp only [Function.comp]
    rw [← mul_assoc, ← spot_eq_exp_d1 S K T r sigma hS hK hT hsigma]
  have h2 : Tendsto (fun S : ℝ => K * rexp (-r * T) * normalCDF (-d2 ⟨S, K, T, r, sigma⟩))
      atTop (𝓝 0) := by
    have h := ((hbot.comp (tendsto_neg_atTop_atBot.comp hd2))).const_mul
      (K * rexp (-r * T))
    rw [mul_zero] at h
    exact h
  have h := h2.sub h1
  rw [sub_zero] at h
  refine h.congr fun S => ?_
  unfold callPrice
  simp only [hneg]
  ring

/-- Witness for C7 at `K = 100, T = 1, r = 0.05, σ = 0.2`. -/
theorem deep_in_the_money_call_witness :
    Tendsto (fun S : ℝ => callDelta ⟨S, 100, 1, 0.05, 0.2⟩) atTop (𝓝 1) ∧
      Tendsto (fun S : ℝ => callPrice ⟨S, 100, 1, 0.05, 0.2⟩ - (S - 100 * rexp (-0.05 * 1)))
        atTop (𝓝 0) :=
  deep_in_the_money_call 100 1 0.05 0.2 (by norm_num) (by norm_num) (by norm_num)

/-- C8. Deep out-of-the-money call: as `S → 0⁺` (fixed valid `K`, `T`, `sigma`, any `r`),
`callDelta → 0` and `callPrice → 0`. -/
theorem deep_out_of_the_money_call (K T r sigma : ℝ) (hK : 0 < K) (hT : 0 < T)
    (hsigma : 0 < sigma) :
    Tendsto (fun S : ℝ => callDelta ⟨S, K, T, r, sigma⟩) (𝓝[>] 0) (𝓝 0) ∧
      Tendsto (fun S : ℝ => callPrice ⟨S, K, T, r, sigma⟩) (𝓝[>] 0) (𝓝 0) := by
  obtain ⟨hbot, -, -⟩ := normalCDF_limits
  have ha : 0 < sigma * √T := mul_pos hsigma (Real.sqrt_pos.mpr hT)
  have hd1 : Tendsto (fun S : ℝ => d1 ⟨S, K, T, r, sigma⟩) (𝓝[>] 0) atBot := by
    unfold d1
    simp only []
    apply Tendsto.atBot_div_const ha
    apply tendsto_atBot_add_const_right
    have hdiv : Tendsto (fun S : ℝ => S / K) (𝓝[>] 0) (𝓝[>] 0) := by
      apply tendsto_nhdsWithin_of_tendsto_nhds_of_eventually_within
      · have : Tendsto (fun S : ℝ => S / K) (𝓝 0) (𝓝 (0 / K)) :=
          (continuous_id.div_const K).tendsto 0
        rw [zero_div] at this
        exact this.mono_left nhdsWithin_le_nhds
      · filter_upwards [self_mem_nhdsWithin] with S hS
        exact div_pos hS hK
    exact Real.tendsto_log_nhdsWithin_zero_right.comp hdiv
  have hd2 : Tendsto (fun S : ℝ => d2 ⟨S, K, T, r, sigma⟩) (𝓝[>] 0) atBot := by
    unfold d2
    have h := tendsto_atBot_add_const_right (𝓝[>] 0) (-(sigma * √T)) hd1
    simpa [sub_eq_add_neg] using h
  have hc1 := hbot.comp hd1
  have hc2 := hbot.comp hd2
  refine ⟨?_, ?_⟩
  · unfold callDelta
    exact hc1
  · have hS : Tendsto (fun S : ℝ => S) (𝓝[>] 0) (𝓝 0) :=
      tendsto_id.mono_left nhdsWithin_le_nhds
    have h := (hS.mul hc1).sub (hc2.const_mul (K * rexp (-r * T)))
    simp only [mul_zero, sub_zero] at h
    unfold callPrice
    exact h

/-- Witness for C8 at `K = 100, T = 1, r = 0.05, σ = 0.2`. -/
theorem deep_out_of_the_money_call_witness :
    Tendsto (fun S : ℝ => callDelta ⟨S, 100, 1, 0.05, 0.2⟩) (𝓝[>] 0) (𝓝 0) ∧
      Tendsto (fun S : ℝ => callPrice ⟨S, 100, 1, 0.05, 0.2⟩) (𝓝[>] 0) (𝓝 0) :=
  deep_out_of_the_money_call 100 1 0.05 0.2 (by norm_num) (by norm_num) (by norm_num)

/-! ## The reference scenario -/

set_option maxHeartbeats 1000000 in
/-- C13. Reference scenario `S = 100, K = 100, T = 1, r = 0.05, sigma = 0.2` in exact real
arithmetic: `callPrice` is within `0.001` of `10.4506`, `putPrice` within `0.001` of `5.5735`,
`callDelta` within `0.001` of `0.6368`, `gamma` within `0.0001` of `0.01876` and `vega` within
`0.001` of `0.3752`. -/
theorem reference_scenario :
    |callPrice ⟨100, 100, 1, 0.05, 0.2⟩ - 10.4506| < 0.001 ∧
    |putPrice ⟨100, 100, 1, 0.05, 0.2⟩ - 5.5735| < 0.001 ∧
    |callDelta ⟨100, 100, 1, 0.05, 0.2⟩ - 0.6368| < 0.001 ∧
    |gamma ⟨100, 100, 1, 0.05, 0.2⟩ - 0.01876| < 0.0001 ∧
    |vega ⟨100, 100, 1, 0.05, 0.2⟩ - 0.3752| < 0.001 := by
  obtain ⟨hneg, hrange, -, -, hseries⟩ := normalCDF_facts
  obtain ⟨hd1, hd2, -, -⟩ := d1_d2_values
  have hp := normalPDF_facts.2
  -- `1 / √(2π)` to seven digits
  have hc : 0.3989422 ≤ 1 / √(2 * π) ∧ 1 / √(2 * π) ≤ 0.3989424 := by
    have hlo := Real.pi_gt_d6
    have hhi := Real.pi_lt_d6
    have hpos : 0 < √(2 * π) := Real.sqrt_pos.mpr (by linarith)
    have h1 : √(2 * π) ≤ 1 / 0.3989422 := by
      rw [Real.sqrt_le_iff]
      constructor
      · norm_num
      · norm_num
        linarith
    have h2 : 1 / 0.3989424 ≤ √(2 * π) := by
      apply Real.le_sqrt_of_sq_le
      norm_num
      linarith
    constructor
    · rw [le_div_iff₀ hpos]
      have := mul_le_mul_of_nonneg_left h1 (by norm_num : (0 : ℝ) ≤ 0.3989422)
      norm_num at this ⊢
      linarith
    · rw [div_le_iff₀ hpos]
      have := mul_le_mul_of_nonneg_left h2 (by norm_num : (0 : ℝ) ≤ 0.3989424)
      norm_num at this ⊢
      linarith
  -- `normalCDF 0.35` and `normalCDF 0.15` to six digits
  have h1 : 0.63683 ≤ normalCDF 0.35 ∧ normalCDF 0.35 ≤ 0.636831 := by
    have hb := hseries 0.35 (by norm_num) (by norm_num)
    have e : (0.35 : ℝ) / √(2 * π) = 0.35 * (1 / √(2 * π)) := by ring
    rw [e] at hb
    norm_num at hb hc ⊢
    constructor <;> nlinarith [hb.1, hb.2, hc.1, hc.2]
  have h2 : 0.559617 ≤ normalCDF 0.15 ∧ normalCDF 0.15 ≤ 0.559618 := by
    have hb := hseries 0.15 (by norm_num) (by norm_num)
    have e : (0.15 : ℝ) / √(2 * π) = 0.15 * (1 / √(2 * π)) := by ring
    rw [e] at hb
    norm_num at hb hc ⊢
    constructor <;> nlinarith [hb.1, hb.2, hc.1, hc.2]
  -- the discount factor `exp (-0.05)` to six digits
  have he : 0.951228 ≤ rexp (-0.05) ∧ rexp (-0.05) ≤ 0.95123 := by
    have h := exp_neg_taylor 0.05 (by norm_num) (by norm_num)
    rw [abs_le] at h
    norm_num at h ⊢
    constructor <;> linarith [h.1, h.2]
  have hr : (-0.05 * 1 : ℝ) = -0.05 := by norm_num
  have hprod_lo : 0.951228 * 0.559617 ≤ rexp (-0.05) * normalCDF 0.15 :=
    mul_le_mul he.1 h2.1 (by norm_num) (Real.exp_pos _).le
  have hprod_hi : rexp (-0.05) * normalCDF 0.15 ≤ 0.95123 * 0.559618 :=
    mul_le_mul he.2 h2.2 (hrange _).1.le (by norm_num)
  have hq_lo : 0.951228 * (1 - 0.559618) ≤ rexp (-0.05) * (1 - normalCDF 0.15) :=
    mul_le_mul he.1 (by linarith [h2.2]) (by norm_num) (Real.exp_pos _).le
  have hq_hi : rexp (-0.05) * (1 - normalCDF 0.15) ≤ 0.95123 * (1 - 0.559617) :=
    mul_le_mul he.2 (by linarith [h2.1]) (by linarith [(hrange (0.15 : ℝ)).2])
      (by norm_num)
  refine ⟨?_, ?_, ?_, ?_, ?_⟩
  · unfold callPrice
    simp only [hd1, hd2, hr]
    rw [abs_lt]
    norm_num at hprod_lo hprod_hi ⊢
    constructor <;> linarith [h1.1, h1.2]
  · unfold putPrice
    simp only [hd1, hd2, hr, hneg]
    rw [abs_lt]
    norm_num at hq_lo hq_hi ⊢
    constructor <;> linarith [h1.1, h1.2]
  · unfold callDelta
    rw [hd1, abs_lt]
    constructor <;> linarith [h1.1, h1.2]
  · unfold gamma
    simp only [hd1, Real.sqrt_one]
    rw [abs_lt]
    norm_num
    constructor <;> linarith [hp.1, hp.2]
  · unfold vega
    simp only [hd1, Real.sqrt_one]
    rw [abs_lt]
    norm_num
    constructor <;> linarith [hp.1, hp.2]

/-! ## The table generators -/

theorem loopIndices_length (points : Int) (h : 0 ≤ points) :
    ((loopIndices points).length : Int) = points + 1 := by
  unfold loopIndices
  simp only [List.length_map, List.length_range]
  omega

theorem loopIndices_getElem? (points : Int) (i : ℕ) (hi : (i : Int) ≤ points) :
    (loopIndices points)[i]? = some (i : Int) := by
  have h : i < (points + 1).toNat := by omega
  unfold loopIndices
  simp [List.getElem?_range h]

/-- C10. For `K > 0` and `N ≥ 1` the `i`-th pair (`0 ≤ i ≤ N`) of the profit/loss table has
price `0.5 * K + i * (K / N)` and profit `max 0 (price - K) - premium` for a call,
`max 0 (K - price) - premium` for a put; the first price is `0.5 * K`, the last `1.5 * K`. -/
theorem profit_loss_entries (bs : BlackScholes) (isCall : Bool) (premium : ℝ) (N : Int)
    (_hK : 0 < bs.K) (hN : 1 ≤ N) :
    (∀ i : ℕ, (i : Int) ≤ N →
      (bs.generateProfitLoss isCall premium N)[i]? =
        some (0.5 * bs.K + (i : ℝ) * (bs.K / (N : ℝ)),
          if isCall then max 0 (0.5 * bs.K + (i : ℝ) * (bs.K / (N : ℝ)) - bs.K) - premium
          else max 0 (bs.K - (0.5 * bs.K + (i : ℝ) * (bs.K / (N : ℝ)))) - premium)) ∧
    ((bs.generateProfitLoss isCall premium N).head?).map Prod.fst = some (0.5 * bs.K) ∧
    ((bs.generateProfitLoss isCall premium N).getLast?).map Prod.fst = some (1.5 * bs.K) := by
  have hN' : (N : ℝ) ≠ 0 := by
    have : (0 : ℝ) < (N : ℝ) := by exact_mod_cast (by omega : 0 < N)
    exact this.ne'
  have hstep : (bs.K * 1.5 - bs.K * 0.5) / (N : ℝ) = bs.K / (N : ℝ) := by
    congr 1; ring
  have entry : ∀ i : ℕ, (i : Int) ≤ N →
      (bs.generateProfitLoss isCall premium N)[i]? =
        some (0.5 * bs.K + (i : ℝ) * (bs.K / (N : ℝ)),
          if isCall then max 0 (0.5 * bs.K + (i : ℝ) * (bs.K / (N : ℝ)) - bs.K) - premium
          else max 0 (bs.K - (0.5 * bs.K + (i : ℝ) * (bs.K / (N : ℝ)))) - premium) := by
    intro i hi
    have e : bs.K * 0.5 + (i : ℝ) * ((bs.K * 1.5 - bs.K * 0.5) / (N : ℝ))
        = 0.5 * bs.K + (i : ℝ) * (bs.K / (N : ℝ)) := by
      rw [hstep]; ring
    have z : (0.0 : ℝ) = 0 := by norm_num
    unfold generateProfitLoss
    simp only [List.getElem?_map, loopIndices_getElem? N i hi,
      Option.map_some', Int.cast_natCast, e, z]
  refine ⟨entry, ?_, ?_⟩
  · rw [List.head?_eq_getElem?, entry 0 (by omega)]
    simp
  · have hlen : ((bs.generateProfitLoss isCall premium N).length : Int) = N + 1 := by
      unfold generateProfitLoss
      simp only [List.length_map]
      exact loopIndices_length N (by omega)
    rw [List.getLast?_eq_getElem?]
    have hl : (bs.generateProfitLoss isCall premium N).length - 1 = N.toNat := by omega
    rw [hl, entry N.toNat (by omega)]
    have hc : ((N.toNat : ℕ) : ℝ) = (N : ℝ) := by
      have : ((N.toNat : ℕ) : Int) = N := by omega
      exact_mod_cast congrArg (fun z : Int => (z : ℝ)) this
    simp only [Option.map_some', hc]
    congr 1
    field_simp
    ring

/-- Witness for C10: strike `100`, `100` points, first and last prices. -/
theorem profit_loss_entries_witness :
    ((generateProfitLoss ⟨100, 100, 1, 0.05, 0.2⟩ true 10 100).head?).map Prod.fst
        = some (0.5 * 100) ∧
      ((generateProfitLoss ⟨100, 100, 1, 0.05, 0.2⟩ true 10 100).getLast?).map Prod.fst
        = some (1.5 * 100) :=
  (profit_loss_entries ⟨100, 100, 1, 0.05, 0.2⟩ true 10 100 (by norm_num) (by norm_num)).2

/-- C11. The profit/loss table is a function of the strike and the call arguments only:
two instances with the same strike `K`, whatever their spot, maturity, rate and volatility,
return equal tables for equal `(isCall, premium, points)`. -/
theorem profit_loss_depends_on_strike_only (K S₁ T₁ r₁ sigma₁ S₂ T₂ r₂ sigma₂ : ℝ)
    (isCall : Bool) (premium : ℝ) (points : Int) :
    generateProfitLoss ⟨S₁, K, T₁, r₁, sigma₁⟩ isCall premium points
      = generateProfitLoss ⟨S₂, K, T₂, r₂, sigma₂⟩ isCall premium points := by
  unfold generateProfitLoss
  rfl

/-- One pass through the body of the Newton loop: with iterations left, the loop returns the
trial value at the convergence test, returns it at the flat-vega `break`, and otherwise goes
on with the clamped Newton update and one iteration less. -/
theorem impliedVolatilityLoop_succ (marketPrice S K T r : ℝ) (isCall : Bool) (tolerance : ℝ)
    (n : ℕ) (sigma : ℝ) :
    impliedVolatilityLoop marketPrice S K T r isCall tolerance (n + 1) sigma
      = if |(if isCall then callPrice ⟨S, K, T, r, sigma⟩ else putPrice ⟨S, K, T, r, sigma⟩)
            - marketPrice| < tolerance then sigma
        else if vega ⟨S, K, T, r, sigma⟩ * 100.0 < 1e-10 then sigma
        else impliedVolatilityLoop marketPrice S K T r isCall tolerance n
          (max 0.01 (min 5.0 (sigma -
            ((if isCall then callPrice ⟨S, K, T, r, sigma⟩ else putPrice ⟨S, K, T, r, sigma⟩)
              - marketPrice) / (vega ⟨S, K, T, r, sigma⟩ * 100.0)))) :=
  rfl

/-- Undoing the `/100` scaling of `vega` gives the raw vega `S * sqrt(T) * normalPDF(d1)`. -/
theorem vega_mul_hundred (bs : BlackScholes) :
    bs.vega * 100.0 = bs.S * √bs.T * normalPDF bs.d1 := by
  unfold vega
  norm_num

theorem toNat_eq_succ (m : Int) (h : 1 ≤ m) : m.toNat = (m.toNat - 1) + 1 := by
  omega

/-- C16. Single Newton step with clamp: for `maxIterations = 1`, if
`diff = modelPrice(0.5) - marketPrice` has `|diff| ≥ tolerance` and the raw vega
`v = S * sqrt(T) * normalPDF(d1)` at `sigma = 0.5` is at least `1e-10`, `impliedVolatility`
returns `max(0.01, min(5.0, 0.5 - diff / v))`. -/
theorem single_newton_step (marketPrice S K T r : ℝ) (isCall : Bool) (tolerance : ℝ)
    (hdiff : tolerance ≤
      |(if isCall then callPrice ⟨S, K, T, r, 0.5⟩ else putPrice ⟨S, K, T, r, 0.5⟩)
        - marketPrice|)
    (hvega : 1e-10 ≤ S * √T * normalPDF (d1 ⟨S, K, T, r, 0.5⟩)) :
    impliedVolatility marketPrice S K T r isCall tolerance 1
      = max 0.01 (min 5.0 (0.5 -
          ((if isCall then callPrice ⟨S, K, T, r, 0.5⟩ else putPrice ⟨S, K, T, r, 0.5⟩)
            - marketPrice) / (S * √T * normalPDF (d1 ⟨S, K, T, r, 0.5⟩)))) := by
  have hn : (1 : Int).toNat = 0 + 1 := by decide
  have hv : ¬ vega ⟨S, K, T, r, 0.5⟩ * 100.0 < 1e-10 := by
    rw [vega_mul_hundred]
    exact not_lt.mpr hvega
  unfold impliedVolatility
  rw [hn, impliedVolatilityLoop_succ, if_neg (not_lt.mpr hdiff), if_neg hv, vega_mul_hundred]
  rfl

/-- Witness for C16: reference market, market price `1000`, one iteration. -/
theorem single_newton_step_witness :
    impliedVolatility 1000 100 100 1 0.05 true 1e-6 1
      = max 0.01 (min 5.0 (0.5 -
          ((if true then callPrice ⟨100, 100, 1, 0.05, 0.5⟩
            else putPrice ⟨100, 100, 1, 0.05, 0.5⟩) - 1000)
            / (100 * √1 * normalPDF (d1 ⟨100, 100, 1, 0.05, 0.5⟩)))) :=
  single_newton_step 1000 100 100 1 0.05 true 1e-6
    (by
      have h := (callPrice_bounds ⟨100, 100, 1, 0.05, 0.5⟩ (by norm_num) (by norm_num)).2
      simp only [if_true]
      rw [abs_of_neg (by norm_num at h ⊢; linarith)]
      norm_num at h ⊢
      linarith)
    (by
      rw [d1_d2_values.2.2.1, Real.sqrt_one]
      have h := (normalPDF_facts.1 0.35).2.2
      norm_num at h ⊢
      linarith)

/-- C17. Flat-vega exit: with `maxIterations ≥ 1`, if the model price at `sigma = 0.5` is not
within `tolerance` of `marketPrice` and the raw vega `S * sqrt(T) * normalPDF(d1)` at
`sigma = 0.5` is below `1e-10`, `impliedVolatility` returns `0.5`, whatever `marketPrice` is
and however many iterations remain. -/
theorem flat_vega_exit (marketPrice S K T r : ℝ) (isCall : Bool) (tolerance : ℝ)
    (maxIterations : Int) (hmax : 1 ≤ maxIterations)
    (hdiff : ¬ |(if isCall then callPrice ⟨S, K, T, r, 0.5⟩ else putPrice ⟨S, K, T, r, 0.5⟩)
        - marketPrice| < tolerance)
    (hvega : S * √T * normalPDF (d1 ⟨S, K, T, r, 0.5⟩) < 1e-10) :
    impliedVolatility marketPrice S K T r isCall tolerance maxIterations = 0.5 := by
  have hv : vega ⟨S, K, T, r, 0.5⟩ * 100.0 < 1e-10 := by
    rw [vega_mul_hundred]
    exact hvega
  unfold impliedVolatility
  rw [toNat_eq_succ maxIterations hmax, impliedVolatilityLoop_succ, if_neg hdiff, if_pos hv]

/-- Witness for C17: spot `1e-11`, strike `1`, one year, zero rate, market price `1`. -/
theorem flat_vega_exit_witness :
    impliedVolatility 1 1e-11 1 1 0 true 1e-6 100 = 0.5 :=
  flat_vega_exit 1 1e-11 1 1 0 true 1e-6 100 (by norm_num)
    (by
      have h := (callPrice_bounds ⟨1e-11, 1, 1, 0, 0.5⟩ (by norm_num) (by norm_num)).2
      simp only [if_true]
      rw [abs_of_neg (by norm_num at h ⊢; linarith)]
      norm_num at h ⊢
      linarith)
    (by
      have h := (normalPDF_facts.1 (d1 ⟨1e-11, 1, 1, 0, 0.5⟩)).2.1
      rw [Real.sqrt_one]
      norm_num at h ⊢
      linarith)

/-- C18. Result range: for all arguments the value returned by `impliedVolatility` lies in
`[0.01, 5.0]`, through whichever exit it leaves; with `maxIterations ≤ 0` it is `0.5`. -/
theorem result_range (marketPrice S K T r : ℝ) (isCall : Bool) (tolerance : ℝ)
    (maxIterations : Int) :
    (0.01 ≤ impliedVolatility marketPrice S K T r isCall tolerance maxIterations ∧
      impliedVolatility marketPrice S K T r isCall tolerance maxIterations ≤ 5.0) ∧
    (maxIterations ≤ 0 →
      impliedVolatility marketPrice S K T r isCall tolerance maxIterations = 0.5) := by
  -- the loop keeps its trial value inside `[0.01, 5.0]`
  have hmem : ∀ (n : ℕ) (sigma : ℝ), 0.01 ≤ sigma ∧ sigma ≤ 5.0 →
      0.01 ≤ impliedVolatilityLoop marketPrice S K T r isCall tolerance n sigma ∧
        impliedVolatilityLoop marketPrice S K T r isCall tolerance n sigma ≤ 5.0 := by
    intro n
    induction n with
    | zero => exact fun sigma h => h
    | succ n ih =>
      intro sigma h
      rw [impliedVolatilityLoop_succ]
      split_ifs <;>
        first
          | exact h
          | exact ih _ ⟨le_max_left _ _, max_le (by norm_num) (min_le_left _ _)⟩
  constructor
  · unfold impliedVolatility
    exact hmem _ _ (by norm_num)
  · intro h
    have h0 : maxIterations.toNat = 0 := by omega
    unfold impliedVolatility
    rw [h0]
    rfl

/-! ## Setters -/

/-- C14. No cached state. After each of the five setters called with `v`, the matching getter
returns `v`, the other four getters return their previous values, and `calculateAll` equals
`calculateAll` of a fresh instance constructed with the updated parameters; the ten fields of
`calculateAll` are the ten scalar accessors. -/
theorem setters_recompute (bs : BlackScholes) (v : ℝ) :
    ((bs.setStockPrice v).getStockPrice = v ∧
      (bs.setStockPrice v).getStrikePrice = bs.getStrikePrice ∧
      (bs.setStockPrice v).getTimeToMaturity = bs.getTimeToMaturity ∧
      (bs.setStockPrice v).getRiskFreeRate = bs.getRiskFreeRate ∧
      (bs.setStockPrice v).getVolatility = bs.getVolatility ∧
      (bs.setStockPrice v).calculateAll
        = calculateAll ⟨v, bs.getStrikePrice, bs.getTimeToMaturity, bs.getRiskFreeRate,
            bs.getVolatility⟩) ∧
    ((bs.setStrikePrice v).getStrikePrice = v ∧
      (bs.setStrikePrice v).getStockPrice = bs.getStockPrice ∧
      (bs.setStrikePrice v).getTimeToMaturity = bs.getTimeToMaturity ∧
      (bs.setStrikePrice v).getRiskFreeRate = bs.getRiskFreeRate ∧
      (bs.setStrikePrice v).getVolatility = bs.getVolatility ∧
      (bs.setStrikePrice v).calculateAll
        = calculateAll ⟨bs.getStockPrice, v, bs.getTimeToMaturity, bs.getRiskFreeRate,
            bs.getVolatility⟩) ∧
    ((bs.setTimeToMaturity v).getTimeToMaturity = v ∧
      (bs.setTimeToMaturity v).getStockPrice = bs.getStockPrice ∧
      (bs.setTimeToMaturity v).getStrikePrice = bs.getStrikePrice ∧
      (bs.setTimeToMaturity v).getRiskFreeRate = bs.getRiskFreeRate ∧
      (bs.setTimeToMaturity v).getVolatility = bs.getVolatility ∧
      (bs.setTimeToMaturity v).calculateAll
        = calculateAll ⟨bs.getStockPrice, bs.getStrikePrice, v, bs.getRiskFreeRate,
            bs.getVolatility⟩) ∧
    ((bs.setRiskFreeRate v).getRiskFreeRate = v ∧
      (bs.setRiskFreeRate v).getStockPrice = bs.getStockPrice ∧
      (bs.setRiskFreeRate v).getStrikePrice = bs.getStrikePrice ∧
      (bs.setRiskFreeRate v).getTimeToMaturity = bs.getTimeToMaturity ∧
      (bs.setRiskFreeRate v).getVolatility = bs.getVolatility ∧
      (bs.setRiskFreeRate v).calculateAll
        = calculateAll ⟨bs.getStockPrice, bs.getStrikePrice, bs.getTimeToMaturity, v,
            bs.getVolatility⟩) ∧
    ((bs.setVolatility v).getVolatility = v ∧
      (bs.setVolatility v).getStockPrice = bs.getStockPrice ∧
      (bs.setVolatility v).getStrikePrice = bs.getStrikePrice ∧
      (bs.setVolatility v).getTimeToMaturity = bs.getTimeToMaturity ∧
      (bs.setVolatility v).getRiskFreeRate = bs.getRiskFreeRate ∧
      (bs.setVolatility v).calculateAll
        = calculateAll ⟨bs.getStockPrice, bs.getStrikePrice, bs.getTimeToMaturity,
            bs.getRiskFreeRate, v⟩) ∧
    (bs.calculateAll.callPrice = bs.callPrice ∧ bs.calculateAll.putPrice = bs.putPrice ∧
      bs.calculateAll.callDelta = bs.callDelta ∧ bs.calculateAll.putDelta = bs.putDelta ∧
      bs.calculateAll.gamma = bs.gamma ∧ bs.calculateAll.vega = bs.vega ∧
      bs.calculateAll.callTheta = bs.callTheta ∧ bs.calculateAll.putTheta = bs.putTheta ∧
      bs.calculateAll.callRho = bs.callRho ∧ bs.calculateAll.putRho = bs.putRho) := by
  refine ⟨⟨rfl, rfl, rfl, rfl, rfl, rfl⟩, ⟨rfl, rfl, rfl, rfl, rfl, rfl⟩,
    ⟨rfl, rfl, rfl, rfl, rfl, rfl⟩, ⟨rfl, rfl, rfl, rfl, rfl, rfl⟩,
    ⟨rfl, rfl, rfl, rfl, rfl, rfl⟩, ⟨rfl, rfl, rfl, rfl, rfl, rfl, rfl, rfl, rfl, rfl⟩⟩

end BlackScholes
